import Mathlib

/-!
Verification of the SHRDLURN community and logging server (server.py)
against its natural-language specification.

The Python source is embedded shallowly:

* pure helpers (the scoring formula, uid scrubbing, the struct-id
  allocation, the reverse line scanner) become Lean functions over exact
  arithmetic (Int, Rat, Real) and lists of characters;
* the filesystem state touched by each socket handler (struct records,
  activity logs) becomes an explicit state value threaded through the
  handler, and the messages a handler emits become an explicit result list;
* fallible Python evaluation is made explicit: referencing a local
  variable that was only conditionally assigned becomes an Except error,
  and the division by zero that the float formula can hit becomes an
  Option result;
* the unsynchronised read-then-write of the upvote handler is additionally
  modelled at the granularity of its two filesystem operations, so that
  schedules (interleavings) of concurrent upvotes can be quantified over.
-/

namespace Shrdlurn

/-- GRAVITY constant of server.py: the weight of time decay in the score. -/
def GRAVITY : ℝ := 1.4

/-- TIME_INTERVAL constant of server.py: the scoring time bucket, 1800 seconds. -/
def TIME_INTERVAL : ℝ := 1800.0

/-- score_struct of server.py, over the reals.  The code computes
time_ago = now / TIME_INTERVAL - timestamp / TIME_INTERVAL and returns
(upvotesN + 1) / ((time_ago + 2) ** GRAVITY); the power is real
exponentiation. -/
noncomputable def score_struct (now timestamp : ℤ) (upvotesN : ℕ) : ℝ :=
  ((upvotesN : ℝ) + 1) /
    (((now : ℝ) / TIME_INTERVAL - (timestamp : ℝ) / TIME_INTERVAL + 2) ^ GRAVITY)

/-- Modelled from the spec: score(submittedAt, upvoteCount, now) =
(upvoteCount + 1) / ((elapsedIntervals + 2) ^ GRAVITY) with
elapsedIntervals = (now - submittedAt) / TIME_INTERVAL_SECONDS. -/
noncomputable def scoreSpec (submittedAt : ℤ) (upvoteCount : ℕ) (now : ℤ) : ℝ :=
  ((upvoteCount : ℝ) + 1) /
    ((((now : ℝ) - (submittedAt : ℝ)) / TIME_INTERVAL + 2) ^ GRAVITY)

/-- score_struct of server.py with the partiality of the Python float
operators made explicit.  The base (time_ago + 2) is computed exactly (the
failing inputs below are exactly representable in binary floating point, so
the exact value is also the float value).  When the base is zero the Python
division raises ZeroDivisionError, modelled as none; when the base is
negative, Python 3 float power falls back to a complex result, modelled
with complex exponentiation; otherwise the value is the real formula. -/
noncomputable def score_struct_py (now timestamp : ℤ) (upvotesN : ℕ) : Option ℂ :=
  let time_ago : ℚ := (now : ℚ) / 1800 - (timestamp : ℚ) / 1800
  let base : ℚ := time_ago + 2
  if base = 0 then none
  else if 0 ≤ base then
    some (((upvotesN : ℂ) + 1) / ((((base : ℝ) ^ GRAVITY : ℝ) : ℂ)))
  else
    some (((upvotesN : ℂ) + 1) / (((base : ℝ) : ℂ) ^ ((GRAVITY : ℝ) : ℂ)))

/-- scrub_uid of server.py: only the first 8 characters of a session id are
shown to other users. -/
def scrub_uid (uid : String) : String := uid.take 8

/-- One stored struct record: the three lines of a struct file (upvoter
list, submission timestamp, payload). -/
structure StructRec where
  upvoters : List String
  timestamp : ℤ
  payload : String

deriving instance DecidableEq for StructRec

/-- The struct store: the struct files keyed by (owner session id, struct id). -/
abbrev Store := List ((String × String) × StructRec)

/-- Look a struct file up by its (owner, id) path, as os.path.isfile plus
the subsequent read does. -/
def storeLookup (st : Store) (k : String × String) : Option StructRec :=
  match st with
  | [] => none
  | (k2, r) :: rest => if k2 = k then some r else storeLookup rest k

/-- Overwrite one struct file, as the open(path, w) rewrite does. -/
def storeWrite (st : Store) (k : String × String) (r : StructRec) : Store :=
  match st with
  | [] => [(k, r)]
  | (k2, r2) :: rest => if k2 = k then (k, r) :: rest else (k2, r2) :: storeWrite rest k r

/-- The upvote message broadcast to the community room. -/
structure UpvoteMsg where
  uid : String
  id : String
  up : String
  score : ℝ

/-- Python runtime errors that the embedded handlers can raise. -/
inductive PyErr where
  | unboundLocalError
  | jsonDecodeError

deriving instance DecidableEq for PyErr

/-- The upvote handler of server.py.  It no-ops when no session uid is
bound or the target file does not exist.  Otherwise it reads the upvoter
list; only when the caller is absent from it does it append the caller,
rewrite the file, and assign the local variable timestamp (from the file's
second line).  The local is modelled as an Option: the code then evaluates
score_struct(timestamp, len(upvotes)) unconditionally, which on the
already-upvoted path references the never-assigned local and raises
UnboundLocalError. -/
noncomputable def upvote (now : ℤ) (st : Store) (sessionUid : String) (dataUid dataId : String) :
    Except PyErr (Store × List UpvoteMsg) :=
  if sessionUid = "" then .ok (st, [])
  else
    match storeLookup st (dataUid, dataId) with
    | none => .ok (st, [])
    | some r =>
      let upvotes0 := r.upvoters
      let afterIf : Store × Option ℤ × List String :=
        if sessionUid ∈ upvotes0 then (st, none, upvotes0)
        else
          (storeWrite st (dataUid, dataId)
            ⟨upvotes0 ++ [sessionUid], r.timestamp, r.payload⟩,
           some r.timestamp, upvotes0 ++ [sessionUid])
      match afterIf.2.1 with
      | none => .error .unboundLocalError
      | some ts =>
        .ok (afterIf.1,
          [⟨dataUid, dataId, scrub_uid sessionUid, score_struct now ts afterIf.2.2.length⟩])

/-- The msg object of a log request (only the fields the handler reads). -/
structure LogMsgBody where
  query : String
  defineAs : String

/-- The data object of a log request; type is an optional key. -/
structure LogData where
  typeField : Option String
  msg : LogMsgBody

/-- One line of an activity log file: the logged object plus the
server-assigned timestamp. -/
structure LogEntry where
  data : LogData
  timestamp : ℤ

/-- Messages broadcast to the community room by the log handler. -/
inductive CommunityMsg where
  | new_accept (uid : String) (query : String) (timestamp : ℤ)
  | new_define (uid : String) (defined : String) (timestamp : ℤ)

/-- The log helper of server.py: stamp the message and append it to the
end of the caller's log file. -/
def logAppend (now : ℤ) (uid : String) (logs : List (String × LogEntry)) (message : LogData) :
    List (String × LogEntry) :=
  logs ++ [(uid, ⟨message, now⟩)]

/-- handle_log of server.py: reject a request without a type key before
any append or broadcast; otherwise append, then broadcast new_accept or
new_define for those two types. -/
def handle_log (now : ℤ) (sessionUid : String) (logs : List (String × LogEntry))
    (data : LogData) : List (String × LogEntry) × List CommunityMsg :=
  match data.typeField with
  | none => (logs, [])
  | some t =>
    let logs2 := logAppend now sessionUid logs data
    if t = "accept" then
      (logs2, [.new_accept (scrub_uid sessionUid) data.msg.query now])
    else if t = "define" then
      (logs2, [.new_define (scrub_uid sessionUid) data.msg.defineAs now])
    else (logs2, [])

/-- The struct-id allocation of handle_share in server.py: listdir the
owner's folder; the new id is 1 for an empty folder and otherwise
max(existing ids) + 1. -/
def new_struct_id (names : List ℕ) : ℕ :=
  if names = [] then 1 else names.foldr Nat.max 0 + 1

/-- The ids in one owner's struct folder after n consecutive shares by
that owner, starting from an empty folder. -/
def shareFolder : ℕ → List ℕ
  | 0 => []
  | n + 1 => shareFolder n ++ [new_struct_id (shareFolder n)]

/-- The two filesystem operations of one upvote by one voter: reading the
upvoter list from the file, and conditionally rewriting the file from the
snapshot that was read. -/
inductive UpvoteStep where
  | readUpvoters (voter : String)
  | writeUpvoters (voter : String)

deriving instance DecidableEq for UpvoteStep

/-- The record file plus the private snapshots concurrent upvote handlers
have read so far. -/
structure UpvoteRace where
  fileUpvoters : List String
  pendingReads : List (String × List String)

deriving instance DecidableEq for UpvoteRace

/-- Look up the snapshot a voter's handler read. -/
def pendingLookup (p : List (String × List String)) (v : String) : Option (List String) :=
  match p with
  | [] => none
  | (w, snap) :: rest => if w = v then some snap else pendingLookup rest v

/-- One interleaving step: a read takes a snapshot of the file; a write
rewrites the whole file with voter appended to the snapshot, unless the
snapshot already contained the voter (the idempotence check of the
handler), or no snapshot was taken (ill-formed schedule: no effect). -/
def upvoteStepRun (st : UpvoteRace) : UpvoteStep → UpvoteRace
  | .readUpvoters v => ⟨st.fileUpvoters, (v, st.fileUpvoters) :: st.pendingReads⟩
  | .writeUpvoters v =>
    match pendingLookup st.pendingReads v with
    | none => st
    | some snap => if v ∈ snap then st else ⟨snap ++ [v], st.pendingReads⟩

/-- Run a schedule (one interleaving of the steps of several upvote
handlers on the same record). -/
def runSchedule (sched : List UpvoteStep) (st : UpvoteRace) : UpvoteRace :=
  sched.foldl upvoteStepRun st

/-- The serialized schedule: each voter's read-then-write runs without
interleaving. -/
def serializedSchedule : List String → List UpvoteStep
  | [] => []
  | v :: vs => .readUpvoters v :: .writeUpvoters v :: serializedSchedule vs

/-- The steps of one voter inside a schedule. -/
def stepsOf (v : String) (sched : List UpvoteStep) : List UpvoteStep :=
  sched.filter fun s =>
    match s with
    | .readUpvoters w => w == v
    | .writeUpvoters w => w == v

/-- A schedule is an interleaving of complete upvote operations by exactly
the voters vs: every voter reads once and then writes once, and the
schedule contains no other steps. -/
def isUpvoteScheduleFor (sched : List UpvoteStep) (vs : List String) : Bool :=
  (vs.all fun v => stepsOf v sched = [.readUpvoters v, .writeUpvoters v]) &&
  (sched.all fun s =>
    match s with
    | .readUpvoters w => vs.contains w
    | .writeUpvoters w => vs.contains w)

/-- An interleaving of the upvotes of the two distinct voters alice and
bob in which both reads happen before either write. -/
def raceSchedule : List UpvoteStep :=
  [.readUpvoters "alice", .readUpvoters "bob", .writeUpvoters "alice", .writeUpvoters "bob"]

/-- Whitespace as stripped by str.strip and skipped by json.loads. -/
def isJsonWs (c : Char) : Bool :=
  c == ' ' || c == '\n' || c == '\t' || c == '\r'

/-- Strip leading and trailing whitespace from a character list. -/
def stripChars (l : List Char) : List Char :=
  ((l.dropWhile isJsonWs).reverse.dropWhile isJsonWs).reverse

/-- str.strip of Python on a string. -/
def pyStrip (s : String) : String := String.mk (stripChars s.toList)

/-- Scan the body of a JSON string literal up to its closing quote
(session ids contain no escapes). -/
def scanJsonString : List Char → Option (List Char × List Char)
  | [] => none
  | c :: rest =>
    if c = '"' then some ([], rest)
    else
      match scanJsonString rest with
      | some (s, r) => some (c :: s, r)
      | none => none

/-- Parse the comma-separated string items of a JSON array of strings, as
json.dumps writes them, starting after the opening bracket.  The fuel is
an upper bound on the input length. -/
def parseJsonStringItems : ℕ → List Char → Option (List String)
  | 0, _ => none
  | fuel + 1, l =>
    match l with
    | '"' :: rest =>
      match scanJsonString rest with
      | some (s, r) =>
        match r with
        | [']'] => some [String.mk s]
        | ',' :: ' ' :: r2 =>
          match parseJsonStringItems fuel r2 with
          | some xs => some (String.mk s :: xs)
          | none => none
        | _ => none
      | none => none
    | _ => none

/-- json.loads of the first line of a struct file: a JSON array of the
upvoter session ids, in the format json.dumps writes. -/
def parseStringList (s : String) : Option (List String) :=
  match stripChars s.toList with
  | ['[', ']'] => some []
  | '[' :: rest => parseJsonStringItems rest.length rest
  | _ => none

/-- Accumulate decimal digits; fails on a non-digit. -/
def digitsToNat : List Char → ℕ → Option ℕ
  | [], acc => some acc
  | c :: rest, acc =>
    if c.isDigit then digitsToNat rest (acc * 10 + (c.toNat - 48))
    else none

/-- Parse an optionally signed decimal integer from characters. -/
def parseIntChars : List Char → Option ℤ
  | [] => none
  | '-' :: rest =>
    if rest = [] then none
    else (digitsToNat rest 0).map fun n => -(n : ℤ)
  | l => (digitsToNat l 0).map fun n => (n : ℤ)

/-- json.loads of the second line of a struct file: the integer
submission timestamp. -/
def parseTimestamp (s : String) : Option ℤ := parseIntChars (stripChars s.toList)

/-- The struct message emitted for one stored struct file.  The payload
line is carried through opaquely, as the code stores and forwards it
unmodified. -/
structure StructMsg where
  uid : String
  id : String
  score : ℝ
  upvotes : List String
  struct : String

/-- The per-file body of emit_structs in server.py: read the file's lines;
when there are not exactly three, continue (skip the file, emitting
nothing); otherwise parse the upvoter list and the timestamp, compute the
score, and emit one struct message whose id is the file name without its
.json extension. -/
noncomputable def read_struct_file (now : ℤ) (uid fname : String) (fileLines : List String) :
    Except PyErr (List StructMsg) :=
  match fileLines with
  | [l0, l1, l2] =>
    match parseStringList l0, parseTimestamp l1 with
    | some upvotes, some timestamp =>
      .ok [⟨scrub_uid uid, fname.dropRight 5,
            score_struct now timestamp upvotes.length, upvotes, pyStrip l2⟩]
    | some _, none => .error .jsonDecodeError
    | none, _ => .error .jsonDecodeError
  | _ => .ok []

/-- The inner loop of emit_structs over the files of one owner folder. -/
noncomputable def emit_structs_files (now : ℤ) (uid : String) :
    List (String × List String) → Except PyErr (List StructMsg)
  | [] => .ok []
  | (fname, fileLines) :: rest =>
    match read_struct_file now uid fname fileLines with
    | .error e => .error e
    | .ok ms =>
      match emit_structs_files now uid rest with
      | .error e => .error e
      | .ok more => .ok (ms ++ more)

/-- emit_structs of server.py: walk every owner folder of the structs
folder and emit the struct messages of its files one by one. -/
noncomputable def emit_structs (now : ℤ) :
    List (String × List (String × List String)) → Except PyErr (List StructMsg)
  | [] => .ok []
  | (uid, files) :: rest =>
    match emit_structs_files now uid files with
    | .error e => .error e
    | .ok ms =>
      match emit_structs now rest with
      | .error e => .error e
      | .ok more => .ok (ms ++ more)

/-- A struct file whose first two lines parse (files with other than three
lines are skipped before parsing, so they pass vacuously). -/
def fileParses (fileLines : List String) : Bool :=
  match fileLines with
  | [l0, l1, _] => (parseStringList l0).isSome && (parseTimestamp l1).isSome
  | _ => true

/-- The number of three-line files in one owner folder. -/
def count3files (files : List (String × List String)) : ℕ :=
  (files.filter fun f => f.2.length == 3).length

/-- The number of three-line files across all owner folders. -/
def count3 (dirs : List (String × List (String × List String))) : ℕ :=
  (dirs.map fun d => count3files d.2).sum

/-- str.split of Python with separator a newline: empty input gives one
empty field, and every newline starts a new field. -/
def pySplit : List Char → List (List Char)
  | [] => [[]]
  | c :: rest =>
    if c = '\n' then [] :: pySplit rest
    else
      match pySplit rest with
      | [] => [[c]]
      | h :: t => (c :: h) :: t

/-- Append a suffix to the last field of a field list (lines[-1] += segment
of reverse_readline). -/
def appLast (s : List Char) : List (List Char) → List (List Char)
  | [] => [s]
  | [x] => [x ++ s]
  | x :: y :: t => x :: appLast s (y :: t)

/-- The body of the while loop of reverse_readline in server.py for one
buffer: split the buffer on newlines; if a segment is pending from the
previously read (later) chunk, either yield it (the buffer ends exactly at
a line break) or append it to the last field of this buffer; keep the first
field as the new pending segment; yield the remaining fields from last to
first, skipping empty ones.  Returns the new segment and the yields so far. -/
def chunkStep (buffer : List Char) (segment : Option (List Char)) (ys : List (List Char)) :
    Option (List Char) × List (List Char) :=
  match segment with
  | none =>
    (some ((pySplit buffer).headD []),
     ys ++ (((pySplit buffer).drop 1).filter fun l => !l.isEmpty).reverse)
  | some s =>
    if buffer.getLast? = some '\n' then
      (some ((pySplit buffer).headD []),
       (ys ++ [s]) ++ (((pySplit buffer).drop 1).filter fun l => !l.isEmpty).reverse)
    else
      (some ((appLast s (pySplit buffer)).headD []),
       ys ++ (((appLast s (pySplit buffer)).drop 1).filter fun l => !l.isEmpty).reverse)

/-- The while loop of reverse_readline: as long as content remains, read
the last buf_size characters of it as the next buffer and process them with
chunkStep.  The fuel argument bounds the number of iterations; the loop
consumes at least one character per iteration whenever buf_size is
positive, so fuel = initial length suffices (with buf_size = 0 the Python
loop never terminates). -/
def reverse_readline_loop (buf_size : ℕ) :
    ℕ → List Char → Option (List Char) → List (List Char) →
      Option (List Char) × List (List Char)
  | 0, _, segment, ys => (segment, ys)
  | fuel + 1, content, segment, ys =>
    if content.length = 0 ∨ buf_size = 0 then (segment, ys)
    else
      reverse_readline_loop buf_size fuel (content.take (content.length - buf_size))
        (chunkStep (content.drop (content.length - buf_size)) segment ys).1
        (chunkStep (content.drop (content.length - buf_size)) segment ys).2

/-- reverse_readline of server.py: a generator returning the lines of a
file in reverse order, reading the file buf_size characters at a time from
the end; after the loop the pending segment (the start of the file) is
yielded unless the file was empty. -/
def reverse_readline (content : List Char) (buf_size : ℕ) : List (List Char) :=
  match reverse_readline_loop buf_size content.length content none [] with
  | (some s, ys) => ys ++ [s]
  | (none, ys) => ys

/-- A log file of newline-terminated entries, as the append-only log
helper writes it: every entry followed by a newline. -/
def encodeLogFile : List (List Char) → List Char
  | [] => []
  | e :: es => e ++ '\n' :: encodeLogFile es

/-- No two adjacent newlines: the shape of a log file whose entries are
all nonempty. -/
def NoNlNl (l : List Char) : Prop :=
  l.Chain' fun a b => ¬(a = '\n' ∧ b = '\n')

/-!  Theorems.  First the helper lemmas, then one theorem per claim
(with its witness or counterexample where required). -/

/-- C5: the score function is exactly (upvoteCount + 1) /
((elapsedIntervals + 2) ^ 1.4) with elapsedIntervals =
(now - submittedAt) / 1800, and a record shared at the current instant
with zero upvotes scores 1 / 2 ^ 1.4. -/
theorem claim_C5 :
    (∀ (now ts : ℤ) (n : ℕ), score_struct now ts n = scoreSpec ts n now) ∧
    (∀ t0 : ℤ, score_struct t0 t0 0 = 1 / (2 : ℝ) ^ GRAVITY) := by
  constructor
  · intro now ts n
    unfold score_struct scoreSpec
    rw [sub_div]
  · intro t0
    unfold score_struct
    rw [sub_self]
    norm_num

/-- C6: for a fixed upvote count the score strictly decreases as the
elapsed time since submission grows, and for a fixed elapsed time it
strictly increases in the upvote count. -/
theorem claim_C6 (now ts1 ts2 : ℤ) (n n1 n2 : ℕ)
    (holder : ts2 < ts1) (hrecent : ts1 ≤ now) (hup : n1 < n2) :
    score_struct now ts2 n < score_struct now ts1 n ∧
    score_struct now ts1 n1 < score_struct now ts1 n2 := by
  have hT : (0 : ℝ) < TIME_INTERVAL := by norm_num [TIME_INTERVAL]
  have e1 : (ts1 : ℝ) ≤ (now : ℝ) := by exact_mod_cast hrecent
  have e2 : (ts2 : ℝ) < (ts1 : ℝ) := by exact_mod_cast holder
  have hd1 : (ts1 : ℝ) / TIME_INTERVAL ≤ (now : ℝ) / TIME_INTERVAL :=
    (div_le_div_right hT).mpr e1
  have hd2 : (ts2 : ℝ) / TIME_INTERVAL < (ts1 : ℝ) / TIME_INTERVAL :=
    (div_lt_div_right hT).mpr e2
  have hb1pos : (0 : ℝ) < (now : ℝ) / TIME_INTERVAL - (ts1 : ℝ) / TIME_INTERVAL + 2 := by
    linarith
  have hblt : (now : ℝ) / TIME_INTERVAL - (ts1 : ℝ) / TIME_INTERVAL + 2 <
      (now : ℝ) / TIME_INTERVAL - (ts2 : ℝ) / TIME_INTERVAL + 2 := by
    linarith
  have hG : (0 : ℝ) < GRAVITY := by norm_num [GRAVITY]
  have hpow := Real.rpow_lt_rpow (le_of_lt hb1pos) hblt hG
  have hpow1pos := Real.rpow_pos_of_pos hb1pos GRAVITY
  constructor
  · unfold score_struct
    exact div_lt_div_of_pos_left (by positivity) hpow1pos hpow
  · unfold score_struct
    apply (div_lt_div_right hpow1pos).mpr
    have : (n1 : ℝ) < (n2 : ℝ) := by exact_mod_cast hup
    linarith

/-- Witness for C6 at concrete inputs: sharing 1800 seconds earlier
strictly lowers the score, one more upvote strictly raises it. -/
theorem claim_C6_witness :
    score_struct 0 (-1800) 0 < score_struct 0 0 0 ∧
    score_struct 0 0 0 < score_struct 0 0 1 :=
  claim_C6 0 0 (-1800) 0 0 1 (by norm_num) (by norm_num) (by norm_num)

/-- C7: at a clock skew of exactly +3600 seconds (timestamp one hour in
the future of now, an exactly representable float case) the base of the
power is 0, the power is 0.0, and the final division raises
ZeroDivisionError: the score function raises instead of returning a
value. -/
theorem claim_C7_code_eval : score_struct_py 1800000000 1800003600 0 = none := by
  have h : (((1800000000 : ℤ) : ℚ) / 1800 - ((1800003600 : ℤ) : ℚ) / 1800 + 2) = 0 := by
    norm_num
  simp only [score_struct_py, h, if_pos]

/-- C1: a repeated upvote by a voter already in the stored upvoter list
does not return successfully: the score recomputation references the
local variable timestamp, which was only assigned on the
first-time-upvote branch, so the handler raises UnboundLocalError (and
broadcasts nothing). -/
theorem claim_C1_code_eval :
    upvote 2000 [(("owner0001", "1"), ⟨["alice0001"], 1000, "cube"⟩)]
        "alice0001" "owner0001" "1" = .error .unboundLocalError := by
  rfl

/-- C9: an upvote whose target (ownerId, localId) names no existing
record is a silent no-op: the store is unchanged and nothing is
broadcast. -/
theorem claim_C9 (now : ℤ) (st : Store) (sessionUid dataUid dataId : String)
    (hid : sessionUid ≠ "") (habs : storeLookup st (dataUid, dataId) = none) :
    upvote now st sessionUid dataUid dataId = .ok (st, []) := by
  unfold upvote
  rw [if_neg hid, habs]

/-- Witness for C9: an upvote against an empty store. -/
theorem claim_C9_witness :
    "alice0001" ≠ "" ∧ storeLookup [] ("owner0001", "1") = none ∧
      upvote 0 [] "alice0001" "owner0001" "1" = .ok ([], []) :=
  ⟨by decide, rfl, claim_C9 0 [] "alice0001" "owner0001" "1" (by decide) rfl⟩

/-- C8: a log request without a type field changes no state and emits
nothing: the log is unchanged and no message is broadcast. -/
theorem claim_C8 (now : ℤ) (sessionUid : String) (logs : List (String × LogEntry))
    (data : LogData) (hmissing : data.typeField = none) :
    handle_log now sessionUid logs data = (logs, []) := by
  unfold handle_log
  rw [hmissing]

/-- Witness for C8: a concrete typeless log request against an empty log. -/
theorem claim_C8_witness :
    (LogData.mk none ⟨"q", "d"⟩).typeField = none ∧
      handle_log 0 "alice0001" [] ⟨none, ⟨"q", "d"⟩⟩ = ([], []) :=
  ⟨rfl, claim_C8 0 "alice0001" [] ⟨none, ⟨"q", "d"⟩⟩ rfl⟩

/-- Folding max over a list bounded by the seed returns the seed. -/
theorem foldr_max_of_le (l : List ℕ) (m : ℕ) (h : ∀ x ∈ l, x ≤ m) :
    l.foldr Nat.max m = m := by
  induction l with
  | nil => rfl
  | cons a t ih =>
    simp only [List.foldr_cons]
    rw [ih fun x hx => h x (List.mem_cons_of_mem a hx)]
    exact Nat.max_eq_right (h a (List.mem_cons_self a t))

/-- The maximum of the ids 1..n is n. -/
theorem foldr_max_range' (n : ℕ) : (List.range' 1 n).foldr Nat.max 0 = n := by
  induction n with
  | zero => rfl
  | succ n ih =>
    rw [List.range'_concat, List.foldr_append]
    simp only [List.foldr_cons, List.foldr_nil, Nat.max_zero, one_mul]
    have h1n : 1 + n = n + 1 := Nat.add_comm 1 n
    rw [h1n]
    apply foldr_max_of_le
    intro x hx
    have := (List.mem_range'_1.mp hx).2
    omega

/-- After n shares from an empty folder the folder holds exactly the ids
1..n. -/
theorem shareFolder_eq_range' (n : ℕ) : shareFolder n = List.range' 1 n := by
  induction n with
  | zero => rfl
  | succ n ih =>
    show shareFolder n ++ [new_struct_id (shareFolder n)] = _
    rw [ih, List.range'_concat]
    cases n with
    | zero => rfl
    | succ m =>
      unfold new_struct_id
      rw [if_neg (by simp [List.range'])]
      rw [foldr_max_range']
      have : 1 + 1 * (m + 1) = m + 1 + 1 := by ring
      rw [this]

/-- C4: over any sequence of shares by one owner starting from an empty
folder, the id allocated to the next struct (max of the existing ids plus
one, 1 for an empty folder) equals the count of the owner's existing
records plus one, the folder is exactly 1..n, and the allocated ids are
unique. -/
theorem claim_C4 (n : ℕ) :
    shareFolder n = List.range' 1 n ∧
    new_struct_id (shareFolder n) = (shareFolder n).length + 1 ∧
    (shareFolder n).Nodup := by
  refine ⟨shareFolder_eq_range' n, ?_, ?_⟩
  · rw [shareFolder_eq_range', List.length_range']
    cases n with
    | zero => rfl
    | succ m =>
      unfold new_struct_id
      rw [if_neg (by simp [List.range'])]
      rw [foldr_max_range']
  · rw [shareFolder_eq_range']
    exact List.nodup_range' _ _

/-- Running the serialized schedule of a list of fresh distinct voters
appends exactly those voters to the record file. -/
theorem claim_C3_amended (vs : List String) (f : List String)
    (p : List (String × List String)) (hnd : vs.Nodup) (hnew : ∀ v ∈ vs, v ∉ f) :
    (runSchedule (serializedSchedule vs) ⟨f, p⟩).fileUpvoters = f ++ vs := by
  induction vs generalizing f p with
  | nil => simp [runSchedule, serializedSchedule]
  | cons v vs ih =>
    have hv : v ∉ f := hnew v (List.mem_cons_self v vs)
    have step2 :
        runSchedule (serializedSchedule (v :: vs)) ⟨f, p⟩ =
          runSchedule (serializedSchedule vs) ⟨f ++ [v], (v, f) :: p⟩ := by
      simp [serializedSchedule, runSchedule, upvoteStepRun, pendingLookup, hv]
    rw [step2]
    have hnd2 := (List.nodup_cons.mp hnd).2
    have hfresh : ∀ w ∈ vs, w ∉ f ++ [v] := by
      intro w hw
      simp only [List.mem_append, List.mem_singleton]
      rintro (hwf | rfl)
      · exact hnew w (List.mem_cons_of_mem v hw) hwf
      · exact (List.nodup_cons.mp hnd).1 hw
    rw [ih (f ++ [v]) ((v, f) :: p) hnd2 hfresh]
    simp

/-- Witness for the amended C3: two distinct voters upvoting serially end
up both recorded. -/
theorem claim_C3_witness :
    (["alice", "bob"] : List String).Nodup ∧
    (∀ v ∈ (["alice", "bob"] : List String), v ∉ ([] : List String)) ∧
      (runSchedule (serializedSchedule ["alice", "bob"]) ⟨[], []⟩).fileUpvoters =
        [] ++ ["alice", "bob"] :=
  ⟨by decide, by decide, claim_C3_amended ["alice", "bob"] [] [] (by decide) (by decide)⟩

/-- C3 as stated is false: an interleaving of complete upvote operations
by the two distinct voters alice and bob (both reads before either
write) leaves one voter recorded, not two — the second write rewrites the
whole record from its stale snapshot and the first update is lost. -/
theorem claim_C3_counterexample :
    isUpvoteScheduleFor raceSchedule ["alice", "bob"] = true ∧
    (["alice", "bob"] : List String).Nodup ∧
    (runSchedule raceSchedule ⟨[], []⟩).fileUpvoters.length = 1 ∧
    (runSchedule raceSchedule ⟨[], []⟩).fileUpvoters.length ≠ 2 := by
  decide

/-- A struct file whose first two lines parse yields one message when it
has exactly three lines and none otherwise, without error. -/
theorem read_struct_file_ok_count (now : ℤ) (uid fname : String) (fileLines : List String)
    (hp : fileParses fileLines = true) :
    ∃ ms, read_struct_file now uid fname fileLines = .ok ms ∧
      ms.length = (if fileLines.length = 3 then 1 else 0) := by
  match fileLines with
  | [] => exact ⟨[], rfl, rfl⟩
  | [l0] => exact ⟨[], rfl, rfl⟩
  | [l0, l1] => exact ⟨[], rfl, rfl⟩
  | [l0, l1, l2] =>
    simp only [fileParses, Bool.and_eq_true, Option.isSome_iff_exists] at hp
    obtain ⟨⟨ups, hups⟩, ⟨ts, hts⟩⟩ := hp
    refine ⟨[⟨scrub_uid uid, fname.dropRight 5,
      score_struct now ts ups.length, ups, pyStrip l2⟩], ?_, rfl⟩
    simp [read_struct_file, hups, hts]
  | l0 :: l1 :: l2 :: l3 :: t => exact ⟨[], rfl, rfl⟩

/-- Over one owner folder, emit_structs_files succeeds and emits exactly
one message per three-line file, when every three-line file parses. -/
theorem emit_structs_files_count (now : ℤ) (uid : String)
    (files : List (String × List String))
    (hp : ∀ f ∈ files, fileParses f.2 = true) :
    ∃ ms, emit_structs_files now uid files = .ok ms ∧ ms.length = count3files files := by
  induction files with
  | nil => exact ⟨[], rfl, rfl⟩
  | cons f rest ih =>
    obtain ⟨fname, fileLines⟩ := f
    obtain ⟨ms1, h1, hc1⟩ :=
      read_struct_file_ok_count now uid fname fileLines (hp _ (List.mem_cons_self _ _))
    obtain ⟨ms2, h2, hc2⟩ := ih fun g hg => hp g (List.mem_cons_of_mem _ hg)
    refine ⟨ms1 ++ ms2, ?_, ?_⟩
    · simp [emit_structs_files, h1, h2]
    · have hcount : count3files ((fname, fileLines) :: rest) =
          (if fileLines.length = 3 then 1 else 0) + count3files rest := by
        by_cases h3 : fileLines.length = 3
        · simp [count3files, List.filter_cons, h3, Nat.add_comm]
        · simp [count3files, List.filter_cons, h3]
      rw [List.length_append, hc1, hc2, hcount]

/-- Over the whole structs folder, emit_structs succeeds and emits
exactly one message per three-line file, when every three-line file
parses. -/
theorem emit_structs_count (now : ℤ) (dirs : List (String × List (String × List String)))
    (hp : ∀ d ∈ dirs, ∀ f ∈ d.2, fileParses f.2 = true) :
    ∃ evs, emit_structs now dirs = .ok evs ∧ evs.length = count3 dirs := by
  induction dirs with
  | nil => exact ⟨[], rfl, rfl⟩
  | cons d rest ih =>
    obtain ⟨uid, files⟩ := d
    obtain ⟨ms1, h1, hc1⟩ :=
      emit_structs_files_count now uid files (hp _ (List.mem_cons_self _ _))
    obtain ⟨ms2, h2, hc2⟩ := ih fun g hg => hp g (List.mem_cons_of_mem _ hg)
    refine ⟨ms1 ++ ms2, ?_, ?_⟩
    · simp [emit_structs, h1, h2]
    · rw [List.length_append, hc1, hc2]
      simp [count3]

/-- C10: during replay, a stored struct file without exactly three lines
is silently skipped (no message, no error, before any parsing), a
three-line file (upvoters, timestamp, payload) produces exactly one
struct message, and over the whole structs folder one message is emitted
per three-line file. -/
theorem claim_C10 :
    (∀ (now : ℤ) (uid fname : String) (fileLines : List String),
        fileLines.length ≠ 3 → read_struct_file now uid fname fileLines = .ok []) ∧
    (∀ (now : ℤ) (uid fname l0 l1 l2 : String) (ups : List String) (ts : ℤ),
        parseStringList l0 = some ups → parseTimestamp l1 = some ts →
        read_struct_file now uid fname [l0, l1, l2] =
          .ok [⟨scrub_uid uid, fname.dropRight 5,
                score_struct now ts ups.length, ups, pyStrip l2⟩]) ∧
    (∀ (now : ℤ) (dirs : List (String × List (String × List String))),
        (∀ d ∈ dirs, ∀ f ∈ d.2, fileParses f.2 = true) →
        ∃ evs, emit_structs now dirs = .ok evs ∧ evs.length = count3 dirs) := by
  refine ⟨?_, ?_, ?_⟩
  · intro now uid fname fileLines h
    rcases fileLines with _ | ⟨a, _ | ⟨b, _ | ⟨c, _ | ⟨d, t⟩⟩⟩⟩
    · rfl
    · rfl
    · rfl
    · exact absurd rfl h
    · rfl
  · intro now uid fname l0 l1 l2 ups ts hups hts
    simp [read_struct_file, hups, hts]
  · intro now dirs hp
    exact emit_structs_count now dirs hp

/-- Witness for C10: a one-line file is skipped, a concrete well-formed
three-line file produces its one message, and a folder of one such file
replays to one message. -/
theorem claim_C10_witness :
    ((["x"] : List String).length ≠ 3 ∧
      read_struct_file 0 "owner0001" "1.json" ["x"] = .ok []) ∧
    (parseStringList "[]" = some [] ∧ parseTimestamp "1000" = some 1000 ∧
      read_struct_file 0 "owner0001" "1.json" ["[]", "1000", "cube"] =
        .ok [⟨scrub_uid "owner0001", ("1.json").dropRight 5,
              score_struct 0 1000 ([] : List String).length, [], pyStrip "cube"⟩]) ∧
    ((∀ d ∈ [("owner0001", [("1.json", ["[]", "1000", "cube"])])], ∀ f ∈ d.2,
        fileParses f.2 = true) ∧
      ∃ evs, emit_structs 0 [("owner0001", [("1.json", ["[]", "1000", "cube"])])] = .ok evs ∧
        evs.length = count3 [("owner0001", [("1.json", ["[]", "1000", "cube"])])]) :=
  ⟨⟨by decide, claim_C10.1 0 "owner0001" "1.json" ["x"] (by decide)⟩,
   ⟨rfl, rfl, claim_C10.2.1 0 "owner0001" "1.json" "[]" "1000" "cube" [] 1000 rfl rfl⟩,
   ⟨by decide, claim_C10.2.2 0 [("owner0001", [("1.json", ["[]", "1000", "cube"])])]
      (by decide)⟩⟩

/-- Splitting never yields an empty field list. -/
theorem pySplit_ne_nil (l : List Char) : pySplit l ≠ [] := by
  induction l with
  | nil => simp [pySplit]
  | cons c rest ih =>
    by_cases h : c = '\n'
    · simp [pySplit, h]
    · cases hr : pySplit rest with
      | nil => exact absurd hr ih
      | cons a t => simp [pySplit, h, hr]

/-- A newline-free string splits into one field. -/
theorem pySplit_no_nl (s : List Char) (h : '\n' ∉ s) : pySplit s = [s] := by
  induction s with
  | nil => rfl
  | cons c rest ih =>
    have hc : ¬c = '\n' := by
      rintro rfl
      exact h (List.mem_cons_self _ _)
    rw [show pySplit (c :: rest) =
      (match pySplit rest with
        | [] => [[c]]
        | h :: t => (c :: h) :: t) from by simp [pySplit, hc]]
    rw [ih fun hm => h (List.mem_cons_of_mem c hm)]

/-- Appending a newline-free suffix extends the last field of the split. -/
theorem pySplit_append_no_nl (a s : List Char) (h : '\n' ∉ s) :
    pySplit (a ++ s) = appLast s (pySplit a) := by
  induction a with
  | nil => simp [pySplit_no_nl s h, appLast]
  | cons c a ih =>
    by_cases hc : c = '\n'
    · subst hc
      cases hr : pySplit a with
      | nil => exact absurd hr (pySplit_ne_nil a)
      | cons x t => simp [pySplit, ih, hr, appLast]
    · cases hr : pySplit a with
      | nil => exact absurd hr (pySplit_ne_nil a)
      | cons x t =>
        cases t with
        | nil => simp [pySplit, hc, hr, ih, appLast]
        | cons y t2 => simp [pySplit, hc, hr, ih, appLast]

/-- Splitting around the last newline: everything after it is one final
field. -/
theorem pySplit_append_nl (d s : List Char) (h : '\n' ∉ s) :
    pySplit (d ++ '\n' :: s) = pySplit d ++ [s] := by
  induction d with
  | nil => simp [pySplit, pySplit_no_nl s h]
  | cons c d ih =>
    by_cases hc : c = '\n'
    · subst hc
      simp [pySplit, ih]
    · cases hr : pySplit d with
      | nil => exact absurd hr (pySplit_ne_nil d)
      | cons x t => simp [pySplit, hc, ih, hr]

/-- The first field of a split contains no newline. -/
theorem pySplit_headD_no_nl (l : List Char) : '\n' ∉ (pySplit l).headD [] := by
  induction l with
  | nil => simp [pySplit]
  | cons c rest ih =>
    by_cases hc : c = '\n'
    · simp [pySplit, hc]
    · cases hr : pySplit rest with
      | nil => exact absurd hr (pySplit_ne_nil rest)
      | cons x t =>
        have ih2 : '\n' ∉ x := by
          rw [hr] at ih
          exact ih
        simp only [pySplit, if_neg hc, hr, List.headD_cons]
        intro hmem
        rcases List.mem_cons.mp hmem with h1 | h2
        · exact hc h1.symm
        · exact ih2 h2

/-- An empty first field means the text starts with a newline. -/
theorem pySplit_headD_eq_nil (c : Char) (rest : List Char)
    (h : (pySplit (c :: rest)).headD [] = []) : c = '\n' := by
  by_cases hc : c = '\n'
  · exact hc
  · exfalso
    cases hr : pySplit rest with
    | nil => exact pySplit_ne_nil rest hr
    | cons x t =>
      rw [show pySplit (c :: rest) = (c :: x) :: t from by simp [pySplit, hc, hr]] at h
      simp at h

/-- Decomposing a split at any cut point: the fields of the whole text are
the fields of the front extended by the first field of the back, followed
by the remaining fields of the back. -/
theorem pySplit_comp (front d : List Char) :
    pySplit (front ++ d) =
      pySplit (front ++ (pySplit d).headD []) ++ (pySplit d).drop 1 := by
  induction front with
  | nil =>
    cases hd : pySplit d with
    | nil => exact absurd hd (pySplit_ne_nil d)
    | cons x t =>
      have hx : '\n' ∉ x := by
        have := pySplit_headD_no_nl d
        rw [hd] at this
        exact this
      simp only [List.nil_append, hd, List.headD_cons, List.drop_succ_cons, List.drop_zero]
      rw [pySplit_no_nl x hx]
      rfl
  | cons c front ih =>
    by_cases hc : c = '\n'
    · subst hc
      simp only [List.cons_append]
      rw [show pySplit ('\n' :: (front ++ d)) = [] :: pySplit (front ++ d) from by
        simp [pySplit]]
      rw [show pySplit ('\n' :: (front ++ (pySplit d).headD [])) =
          [] :: pySplit (front ++ (pySplit d).headD []) from by simp [pySplit]]
      rw [ih]
      simp
    · cases hfs : pySplit (front ++ (pySplit d).headD []) with
      | nil => exact absurd hfs (pySplit_ne_nil _)
      | cons x xs =>
        have hX : pySplit (front ++ d) = x :: (xs ++ (pySplit d).drop 1) := by
          rw [ih, hfs]
          simp
        simp only [List.cons_append]
        rw [show pySplit (c :: (front ++ d)) =
            (match pySplit (front ++ d) with
              | [] => [[c]]
              | h :: t => (c :: h) :: t) from by simp [pySplit, hc]]
        rw [hX]
        rw [show pySplit (c :: (front ++ (pySplit d).headD [])) =
            (match pySplit (front ++ (pySplit d).headD []) with
              | [] => [[c]]
              | h :: t => (c :: h) :: t) from by simp [pySplit, hc]]
        rw [hfs]
        simp

/-- A chunk processed with no pending segment: the first field becomes the
segment, the later fields are yielded in reverse with empties skipped. -/
theorem chunkStep_none (buffer : List Char) (ys : List (List Char)) :
    chunkStep buffer none ys =
      (some ((pySplit buffer).headD []),
       ys ++ (((pySplit buffer).drop 1).filter fun l => !l.isEmpty).reverse) := rfl

/-- A chunk processed with a pending newline-free segment behaves exactly
like splitting the chunk with the segment already attached, provided an
empty segment never meets a chunk ending in a newline (no empty entries). -/
theorem chunkStep_some (buffer s : List Char) (ys : List (List Char))
    (hb : buffer ≠ []) (hs : '\n' ∉ s)
    (hlast : s = [] → buffer.getLast? ≠ some '\n') :
    chunkStep buffer (some s) ys =
      (some ((pySplit (buffer ++ s)).headD []),
       ys ++ (((pySplit (buffer ++ s)).drop 1).filter fun l => !l.isEmpty).reverse) := by
  by_cases hnl : buffer.getLast? = some '\n'
  · have hsne : s ≠ [] := fun h0 => hlast h0 hnl
    have h2 : buffer.getLast hb = '\n' := by
      have h3 := List.getLast?_eq_getLast buffer hb
      rw [h3] at hnl
      exact Option.some_inj.mp hnl
    obtain ⟨d, hbd⟩ : ∃ d, buffer = d ++ ['\n'] :=
      ⟨buffer.dropLast, by rw [← h2]; exact (List.dropLast_append_getLast hb).symm⟩
    subst hbd
    have e1 : pySplit (d ++ ['\n']) = pySplit d ++ [[]] := by
      have h0 := pySplit_append_nl d [] (by simp)
      simpa using h0
    have e2 : pySplit ((d ++ ['\n']) ++ s) = pySplit d ++ [s] := by
      rw [List.append_assoc]
      exact pySplit_append_nl d s hs
    have hF : s.isEmpty = false := by
      cases s with
      | nil => exact absurd rfl hsne
      | cons a b => rfl
    cases hd : pySplit d with
    | nil => exact absurd hd (pySplit_ne_nil d)
    | cons x t =>
      rw [show chunkStep (d ++ ['\n']) (some s) ys =
          (some ((pySplit (d ++ ['\n'])).headD []),
           (ys ++ [s]) ++
             (((pySplit (d ++ ['\n'])).drop 1).filter fun l => !l.isEmpty).reverse) from by
        simp [chunkStep, hnl]]
      rw [e1, e2, hd]
      simp [List.filter_append, hF, List.append_assoc]
  · rw [show chunkStep buffer (some s) ys =
        (some ((appLast s (pySplit buffer)).headD []),
         ys ++ (((appLast s (pySplit buffer)).drop 1).filter fun l => !l.isEmpty).reverse) from by
      simp [chunkStep, hnl]]
    rw [← pySplit_append_no_nl buffer s hs]

/-- The loop is the identity on an empty remaining content. -/
theorem reverse_readline_loop_nil (buf fuel : ℕ) (seg : Option (List Char))
    (ys : List (List Char)) : reverse_readline_loop buf fuel [] seg ys = (seg, ys) := by
  cases fuel with
  | zero => rfl
  | succ f => rfl

/-- Closed form of the scan loop with a pending newline-free segment over a
content with no empty lines: the result segment is the first field of
content plus pending segment, and the yields are the later fields in
reverse. -/
theorem reverse_readline_loop_eq (buf : ℕ) (hbuf : 1 ≤ buf) :
    ∀ (fuel : ℕ) (c : List Char), c ≠ [] → c.length ≤ fuel → NoNlNl c →
      ∀ (s : List Char) (ys : List (List Char)), '\n' ∉ s →
        (s = [] → c.getLast? ≠ some '\n') →
        reverse_readline_loop buf fuel c (some s) ys =
          (some ((pySplit (c ++ s)).headD []),
           ys ++ (((pySplit (c ++ s)).drop 1).filter fun l => !l.isEmpty).reverse) := by
  intro fuel
  induction fuel with
  | zero =>
    intro c hc hlen _ s ys _ _
    exact absurd (List.length_eq_zero.mp (Nat.le_zero.mp hlen)) hc
  | succ fuel ih =>
    intro c hc hlen hchain s ys hs hlast
    have hcpos : 0 < c.length := List.length_pos.mpr hc
    rw [reverse_readline_loop]
    rw [if_neg (show ¬(c.length = 0 ∨ buf = 0) by omega)]
    by_cases hk0 : c.length - buf = 0
    · rw [hk0, List.drop_zero, List.take_zero]
      rw [chunkStep_some c s ys hc hs hlast]
      rw [reverse_readline_loop_nil]
    · have hbne : c.drop (c.length - buf) ≠ [] := by
        rw [ne_eq, List.drop_eq_nil_iff]
        omega
      have hblast : (c.drop (c.length - buf)).getLast? = c.getLast? := by
        conv_rhs => rw [← List.take_append_drop (c.length - buf) c]
        exact (List.getLast?_append_of_ne_nil _ hbne).symm
      rw [chunkStep_some (c.drop (c.length - buf)) s ys hbne hs
        (fun h0 => by rw [hblast]; exact hlast h0)]
      have hfront : c.take (c.length - buf) ≠ [] := by
        rw [ne_eq, List.take_eq_nil_iff]
        push_neg
        exact ⟨hk0, hc⟩
      have hchainappend : List.Chain' (fun a b => ¬(a = '\n' ∧ b = '\n'))
          (c.take (c.length - buf) ++ c.drop (c.length - buf)) := by
        rw [List.take_append_drop]
        exact hchain
      have hchain2 : NoNlNl (c.take (c.length - buf)) :=
        (List.chain'_append.mp hchainappend).1
      have hlen2 : (c.take (c.length - buf)).length ≤ fuel := by
        rw [List.length_take]
        omega
      have hs1nl : '\n' ∉ (pySplit (c.drop (c.length - buf) ++ s)).headD [] :=
        pySplit_headD_no_nl _
      have hs1last : (pySplit (c.drop (c.length - buf) ++ s)).headD [] = [] →
          (c.take (c.length - buf)).getLast? ≠ some '\n' := by
        intro h0 hTl
        cases hdk : c.drop (c.length - buf) with
        | nil => exact hbne hdk
        | cons b bs =>
          have hbnl : b = '\n' := by
            apply pySplit_headD_eq_nil b (bs ++ s)
            rw [hdk] at h0
            simpa using h0
          have hj := (List.chain'_append.mp hchainappend).2.2
          refine hj '\n' hTl '\n' ?_ ⟨rfl, rfl⟩
          rw [hdk, hbnl]
          rfl
      rw [ih (c.take (c.length - buf)) hfront hlen2 hchain2
        ((pySplit (c.drop (c.length - buf) ++ s)).headD [])
        (ys ++ (((pySplit (c.drop (c.length - buf) ++ s)).drop 1).filter
          fun l => !l.isEmpty).reverse) hs1nl hs1last]
      have hcomp : pySplit (c ++ s) =
          pySplit (c.take (c.length - buf) ++
              (pySplit (c.drop (c.length - buf) ++ s)).headD []) ++
            (pySplit (c.drop (c.length - buf) ++ s)).drop 1 := by
        have h0 := pySplit_comp (c.take (c.length - buf)) (c.drop (c.length - buf) ++ s)
        rw [← List.append_assoc, List.take_append_drop] at h0
        exact h0
      cases hA : pySplit (c.take (c.length - buf) ++
          (pySplit (c.drop (c.length - buf) ++ s)).headD []) with
      | nil => exact absurd hA (pySplit_ne_nil _)
      | cons a as =>
        rw [hcomp, hA]
        simp [List.filter_append, List.append_assoc]

/-- Closed form of the whole scan: for nonempty content with no empty
lines and any positive buffer size, the generator yields the fields after
the first newline in reverse (empties skipped) and then the first field. -/
theorem reverse_readline_eq (c : List Char) (buf : ℕ) (hbuf : 1 ≤ buf) (hc : c ≠ [])
    (hchain : NoNlNl c) :
    reverse_readline c buf =
      (((pySplit c).drop 1).filter fun l => !l.isEmpty).reverse ++ [(pySplit c).headD []] := by
  obtain ⟨m, hm⟩ : ∃ m, c.length = m + 1 := by
    cases hL : c.length with
    | zero => exact absurd (List.length_eq_zero.mp hL) hc
    | succ m => exact ⟨m, rfl⟩
  have hcpos : 0 < c.length := by omega
  unfold reverse_readline
  rw [hm]
  rw [reverse_readline_loop]
  rw [if_neg (show ¬(c.length = 0 ∨ buf = 0) by omega)]
  rw [chunkStep_none]
  by_cases hk0 : c.length - buf = 0
  · rw [hk0, List.drop_zero, List.take_zero]
    rw [reverse_readline_loop_nil]
    simp
  · have hbne : c.drop (c.length - buf) ≠ [] := by
      rw [ne_eq, List.drop_eq_nil_iff]
      omega
    have hfront : c.take (c.length - buf) ≠ [] := by
      rw [ne_eq, List.take_eq_nil_iff]
      push_neg
      exact ⟨hk0, hc⟩
    have hchainappend : List.Chain' (fun a b => ¬(a = '\n' ∧ b = '\n'))
        (c.take (c.length - buf) ++ c.drop (c.length - buf)) := by
      rw [List.take_append_drop]
      exact hchain
    have hchain2 : NoNlNl (c.take (c.length - buf)) :=
      (List.chain'_append.mp hchainappend).1
    have hlen2 : (c.take (c.length - buf)).length ≤ m := by
      rw [List.length_take]
      omega
    have hs1nl : '\n' ∉ (pySplit (c.drop (c.length - buf))).headD [] :=
      pySplit_headD_no_nl _
    have hs1last : (pySplit (c.drop (c.length - buf))).headD [] = [] →
        (c.take (c.length - buf)).getLast? ≠ some '\n' := by
      intro h0 hTl
      cases hdk : c.drop (c.length - buf) with
      | nil => exact hbne hdk
      | cons b bs =>
        have hbnl : b = '\n' := by
          apply pySplit_headD_eq_nil b bs
          rw [hdk] at h0
          exact h0
        have hj := (List.chain'_append.mp hchainappend).2.2
        refine hj '\n' hTl '\n' ?_ ⟨rfl, rfl⟩
        rw [hdk, hbnl]
        rfl
    rw [reverse_readline_loop_eq buf hbuf m (c.take (c.length - buf)) hfront hlen2 hchain2
      ((pySplit (c.drop (c.length - buf))).headD [])
      ([] ++ (((pySplit (c.drop (c.length - buf))).drop 1).filter
        fun l => !l.isEmpty).reverse) hs1nl hs1last]
    have hcomp : pySplit c =
        pySplit (c.take (c.length - buf) ++ (pySplit (c.drop (c.length - buf))).headD []) ++
          (pySplit (c.drop (c.length - buf))).drop 1 := by
      have h0 := pySplit_comp (c.take (c.length - buf)) (c.drop (c.length - buf))
      rw [List.take_append_drop] at h0
      exact h0
    cases hA : pySplit (c.take (c.length - buf) ++
        (pySplit (c.drop (c.length - buf))).headD []) with
    | nil => exact absurd hA (pySplit_ne_nil _)
    | cons a as =>
      rw [hcomp, hA]
      simp [List.filter_append, List.append_assoc]

/-- A newline-free character list has no two adjacent newlines. -/
theorem chain'_no_nl (l : List Char) (h : '\n' ∉ l) : NoNlNl l := by
  unfold NoNlNl
  induction l with
  | nil => simp
  | cons c rest ih =>
    rw [List.chain'_cons']
    refine ⟨?_, ih fun hm => h (List.mem_cons_of_mem c hm)⟩
    intro b _ hcon
    exact h (List.mem_cons.mpr (Or.inl hcon.1.symm))

/-- A log file encoded from nonempty newline-free entries has no two
adjacent newlines. -/
theorem noNlNl_encode (es : List (List Char)) (h : ∀ e ∈ es, e ≠ [] ∧ '\n' ∉ e) :
    NoNlNl (encodeLogFile es) := by
  unfold NoNlNl
  induction es with
  | nil => simp [encodeLogFile]
  | cons e es ih =>
    rw [show encodeLogFile (e :: es) = e ++ '\n' :: encodeLogFile es from rfl]
    rw [List.chain'_append]
    refine ⟨chain'_no_nl e (h e (List.mem_cons_self _ _)).2, ?_, ?_⟩
    · rw [List.chain'_cons']
      refine ⟨?_, ih fun x hx => h x (List.mem_cons_of_mem _ hx)⟩
      intro b hb hcon
      cases es with
      | nil => simp [encodeLogFile] at hb
      | cons e2 es2 =>
        obtain ⟨he2ne, he2nl⟩ := h e2 (List.mem_cons_of_mem _ (List.mem_cons_self _ _))
        cases he2 : e2 with
        | nil => exact he2ne he2
        | cons x xs =>
          rw [show encodeLogFile (e2 :: es2) = e2 ++ '\n' :: encodeLogFile es2 from rfl,
            he2] at hb
          simp at hb
          apply he2nl
          rw [he2]
          apply List.mem_cons.mpr
          left
          rw [hb]
          exact hcon.2.symm
    · intro x hx y _ hcon
      have hxe : x ∈ e := by
        obtain ⟨hne, hxeq⟩ := List.mem_getLast?_eq_getLast hx
        rw [hxeq]
        exact List.getLast_mem hne
      exact (h e (List.mem_cons_self _ _)).2 (hcon.1 ▸ hxe)

/-- Splitting an encoded log file yields exactly its entries plus the
final empty field after the trailing newline. -/
theorem pySplit_encode (es : List (List Char)) (h : ∀ e ∈ es, '\n' ∉ e) :
    pySplit (encodeLogFile es) = es ++ [[]] := by
  induction es with
  | nil => rfl
  | cons e es ih =>
    rw [show encodeLogFile (e :: es) = e ++ '\n' :: encodeLogFile es from rfl]
    rw [pySplit_comp e ('\n' :: encodeLogFile es)]
    rw [show pySplit ('\n' :: encodeLogFile es) = [] :: pySplit (encodeLogFile es) from by
      simp [pySplit]]
    simp only [List.headD_cons, List.drop_succ_cons, List.drop_zero, List.append_nil]
    rw [pySplit_no_nl e (h e (List.mem_cons_self _ _)),
      ih fun x hx => h x (List.mem_cons_of_mem _ hx)]
    rfl

/-- C2: over a log file of newline-terminated nonempty entries and any
positive buffer size, the streaming reverse scan yields exactly the
entries in reverse order (no duplication, no loss, across any chunk
boundaries); hence the first maxCount entries matching a predicate equal
the last maxCount forward matches, reversed. -/
theorem claim_C2 (es : List (List Char)) (buf_size : ℕ) (p : List Char → Bool)
    (maxCount : ℕ) (hbuf : 1 ≤ buf_size) (hes : ∀ e ∈ es, e ≠ [] ∧ '\n' ∉ e) :
    reverse_readline (encodeLogFile es) buf_size = es.reverse ∧
    ((reverse_readline (encodeLogFile es) buf_size).filter p).take maxCount =
      ((es.filter p).drop ((es.filter p).length - maxCount)).reverse := by
  have hmain : reverse_readline (encodeLogFile es) buf_size = es.reverse := by
    cases es with
    | nil => rfl
    | cons e1 es1 =>
      have hne : encodeLogFile (e1 :: es1) ≠ [] := by
        rw [show encodeLogFile (e1 :: es1) = e1 ++ '\n' :: encodeLogFile es1 from rfl]
        simp
      rw [reverse_readline_eq _ _ hbuf hne (noNlNl_encode _ hes)]
      rw [pySplit_encode _ fun e he => (hes e he).2]
      have hfil : (es1 ++ [[]]).filter (fun l => !l.isEmpty) = es1 := by
        rw [List.filter_append]
        have h2 : es1.filter (fun l => !l.isEmpty) = es1 := by
          apply List.filter_eq_self.mpr
          intro a ha
          have ha2 := (hes a (List.mem_cons_of_mem _ ha)).1
          cases a with
          | nil => exact absurd rfl ha2
          | cons x xs => rfl
        rw [h2]
        simp
      simp only [List.cons_append, List.drop_succ_cons, List.drop_zero, List.headD_cons]
      rw [hfil, List.reverse_cons]
  refine ⟨hmain, ?_⟩
  rw [hmain, List.filter_reverse, List.take_reverse]

/-- Witness for C2: a two-entry log scanned with buffer size 2 (the
second entry straddles the chunk boundary). -/
theorem claim_C2_witness :
    1 ≤ 2 ∧ (∀ e ∈ [['a'], ['b', 'c']], e ≠ [] ∧ '\n' ∉ e) ∧
    (reverse_readline (encodeLogFile [['a'], ['b', 'c']]) 2 = [['a'], ['b', 'c']].reverse ∧
      ((reverse_readline (encodeLogFile [['a'], ['b', 'c']]) 2).filter
          (fun l => !l.isEmpty)).take 1 =
        (([['a'], ['b', 'c']].filter (fun l => !l.isEmpty)).drop
          (([['a'], ['b', 'c']].filter (fun l => !l.isEmpty)).length - 1)).reverse) :=
  ⟨by norm_num, by decide,
   claim_C2 [['a'], ['b', 'c']] 2 (fun l => !l.isEmpty) 1 (by norm_num) (by decide)⟩

end Shrdlurn
